import Mathlib

/-!
Verification of the Arabic shaping-and-reordering engine of `reports.py`.

The embedding models the module-level tables `_AR_FORMS` and `_LAM_ALEF`,
the classifier predicates `_is_arabic` / `_connects_left`, the shaper
`_shape_run`, and the segmenting/composing entry point `ar`.  Strings are
modelled as `List Char` (Python compares characters by code point, which
matches `Char.toNat` comparison).  All characters are written as
`\uXXXX` escapes; the Arabic base letters U+0621..U+064A are the table
keys of the source, and U+FE80..U+FEFC are the presentation forms the
source spells with the same escapes.  The index-based `while` loop of
`_shape_run` is rendered as structural recursion that carries the
previously consumed character (`chars[i-1]`) as explicit state; an
index-based fallible rendering is also provided and proved equivalent.
-/

/-- Per-letter presentation-forms record.  Slots `f0`..`f3` mirror the
source 4-tuples `(isolated, final, initial, medial)`; an absent slot is
`none` just as the source stores `None`. -/
structure FormEntry where
  f0 : Char
  f1 : Option Char
  f2 : Option Char
  f3 : Option Char
deriving DecidableEq, Repr

/-- Lam+alef ligature record: slots `l0`, `l1` mirror the source pairs
`(isolated ligature, final ligature)`. -/
structure LigEntry where
  l0 : Char
  l1 : Char
deriving DecidableEq, Repr

/-- The `_AR_FORMS` table of `reports.py`, as an association list keyed by
the base letter, in source order. -/
def AR_FORMS : List (Char × FormEntry) := [
  ('ء', ⟨'ﺀ', none, none, none⟩),
  ('آ', ⟨'ﺁ', some 'ﺂ', none, none⟩),
  ('أ', ⟨'ﺃ', some 'ﺄ', none, none⟩),
  ('ؤ', ⟨'ﺅ', some 'ﺆ', none, none⟩),
  ('إ', ⟨'ﺇ', some 'ﺈ', none, none⟩),
  ('ئ', ⟨'ﺉ', some 'ﺊ', some 'ﺋ', some 'ﺌ'⟩),
  ('ا', ⟨'ﺍ', some 'ﺎ', none, none⟩),
  ('ب', ⟨'ﺏ', some 'ﺐ', some 'ﺑ', some 'ﺒ'⟩),
  ('ة', ⟨'ﺓ', some 'ﺔ', none, none⟩),
  ('ت', ⟨'ﺕ', some 'ﺖ', some 'ﺗ', some 'ﺘ'⟩),
  ('ث', ⟨'ﺙ', some 'ﺚ', some 'ﺛ', some 'ﺜ'⟩),
  ('ج', ⟨'ﺝ', some 'ﺞ', some 'ﺟ', some 'ﺠ'⟩),
  ('ح', ⟨'ﺡ', some 'ﺢ', some 'ﺣ', some 'ﺤ'⟩),
  ('خ', ⟨'ﺥ', some 'ﺦ', some 'ﺧ', some 'ﺨ'⟩),
  ('د', ⟨'ﺩ', some 'ﺪ', none, none⟩),
  ('ذ', ⟨'ﺫ', some 'ﺬ', none, none⟩),
  ('ر', ⟨'ﺭ', some 'ﺮ', none, none⟩),
  ('ز', ⟨'ﺯ', some 'ﺰ', none, none⟩),
  ('س', ⟨'ﺱ', some 'ﺲ', some 'ﺳ', some 'ﺴ'⟩),
  ('ش', ⟨'ﺵ', some 'ﺶ', some 'ﺷ', some 'ﺸ'⟩),
  ('ص', ⟨'ﺹ', some 'ﺺ', some 'ﺻ', some 'ﺼ'⟩),
  ('ض', ⟨'ﺽ', some 'ﺾ', some 'ﺿ', some 'ﻀ'⟩),
  ('ط', ⟨'ﻁ', some 'ﻂ', some 'ﻃ', some 'ﻄ'⟩),
  ('ظ', ⟨'ﻅ', some 'ﻆ', some 'ﻇ', some 'ﻈ'⟩),
  ('ع', ⟨'ﻉ', some 'ﻊ', some 'ﻋ', some 'ﻌ'⟩),
  ('غ', ⟨'ﻍ', some 'ﻎ', some 'ﻏ', some 'ﻐ'⟩),
  ('ف', ⟨'ﻑ', some 'ﻒ', some 'ﻓ', some 'ﻔ'⟩),
  ('ق', ⟨'ﻕ', some 'ﻖ', some 'ﻗ', some 'ﻘ'⟩),
  ('ك', ⟨'ﻙ', some 'ﻚ', some 'ﻛ', some 'ﻜ'⟩),
  ('ل', ⟨'ﻝ', some 'ﻞ', some 'ﻟ', some 'ﻠ'⟩),
  ('م', ⟨'ﻡ', some 'ﻢ', some 'ﻣ', some 'ﻤ'⟩),
  ('ن', ⟨'ﻥ', some 'ﻦ', some 'ﻧ', some 'ﻨ'⟩),
  ('ه', ⟨'ﻩ', some 'ﻪ', some 'ﻫ', some 'ﻬ'⟩),
  ('و', ⟨'ﻭ', some 'ﻮ', none, none⟩),
  ('ى', ⟨'ﻯ', some 'ﻰ', none, none⟩),
  ('ي', ⟨'ﻱ', some 'ﻲ', some 'ﻳ', some 'ﻴ'⟩)]

/-- The `_LAM_ALEF` table of `reports.py`: the four ligature-eligible alef
variants (U+0622, U+0623, U+0625, U+0627), each mapped to
`(isolated ligature, final ligature)`. -/
def LAM_ALEF : List (Char × LigEntry) := [
  ('آ', ⟨'ﻵ', 'ﻶ'⟩),
  ('أ', ⟨'ﻷ', 'ﻸ'⟩),
  ('إ', ⟨'ﻹ', 'ﻺ'⟩),
  ('ا', ⟨'ﻻ', 'ﻼ'⟩)]

/-- Lam, the first character of the ligature test `ch == 'ل'`. -/
def lamChar : Char := 'ل'

/-- Source `_is_arabic`: the code point lies in the Arabic block
U+0600..U+06FF (Python compares characters by code point). -/
def isArabic (ch : Char) : Bool :=
  decide (0x600 ≤ ch.toNat ∧ ch.toNat ≤ 0x6FF)

/-- Source `_connects_left`: the character has an `_AR_FORMS` entry whose
initial slot (`[2]`) is present. -/
def connectsLeft (ch : Char) : Bool :=
  match AR_FORMS.lookup ch with
  | some f => f.f2.isSome
  | none => false

/-- The break set of `_shape_run`: the characters of the source string
literal, space, Arabic comma U+060C, Arabic question mark U+061F,
exclamation mark, en-dash U+2013, hyphen, newline. -/
def shapeBreaks : List Char := [' ', '،', '؟', '!', '–', '-', '\n']

/-- Source local `prev_conn`: `i > 0 and _connects_left(chars[i-1])`,
where `prev` carries `chars[i-1]` when `i > 0` and `none` when `i = 0`. -/
def prevConn : Option Char → Bool
  | some p => connectsLeft p
  | none => false

/-- Source local `next_ar` computed from the rest of the run:
`chars[i+1]` is the head of `rest` when it exists (Python uses the empty
string as a sentinel, which fails both the Arabic test and the table
lookup, so a missing next character yields `false`). -/
def nextAr : List Char → Bool
  | [] => false
  | nxt :: _ => (isArabic nxt || (AR_FORMS.lookup nxt).isSome) && !(decide (nxt ∈ shapeBreaks))

/-- The form-selection cascade of `_shape_run`: medial, else final, else
initial, else isolated, with `can_left` meaning slot `[2]` is present. -/
def chooseForm (f : FormEntry) (prev_conn next_ar : Bool) : Char :=
  let can_left := f.f2.isSome
  if prev_conn && next_ar && can_left && f.f3.isSome then f.f3.getD f.f0
  else if prev_conn && f.f1.isSome then f.f1.getD f.f0
  else if next_ar && can_left && f.f2.isSome then f.f2.getD f.f0
  else f.f0

/-- The `while` loop of `_shape_run`, as structural recursion over the
remaining characters; `prev` is `chars[i-1]` (or `none` at `i = 0`).
Branches in source order: pass-through when the character has no
`_AR_FORMS` entry; the lam+alef ligature when the character is lam and
the next character has a `_LAM_ALEF` entry (consuming two characters and
making the alef the new previous character); otherwise the normal form
selection. -/
def shapeRunGo : Option Char → List Char → List Char
  | _, [] => []
  | prev, [ch] =>
    match AR_FORMS.lookup ch with
    | none => [ch]
    | some f => [chooseForm f (prevConn prev) (nextAr [])]
  | prev, ch :: nxt :: rest2 =>
    match AR_FORMS.lookup ch with
    | none => ch :: shapeRunGo (some ch) (nxt :: rest2)
    | some f =>
      if ch = lamChar then
        match LAM_ALEF.lookup nxt with
        | some lig =>
          (if prevConn prev then lig.l1 else lig.l0) :: shapeRunGo (some nxt) rest2
        | none =>
          chooseForm f (prevConn prev) (nextAr (nxt :: rest2)) ::
            shapeRunGo (some ch) (nxt :: rest2)
      else
        chooseForm f (prevConn prev) (nextAr (nxt :: rest2)) ::
          shapeRunGo (some ch) (nxt :: rest2)

/-- Source `_shape_run`, started at index 0 (no previous character). -/
def shapeRun (chars : List Char) : List Char :=
  shapeRunGo none chars

example : shapeRun ['ل', 'ا'] = ['ﻻ'] := by decide
example : shapeRun ['م', 'ر', 'ح', 'ب', 'ا'] =
    ['ﻣ', 'ﺮ', 'ﺣ', 'ﺒ', 'ﺎ'] := by decide
example : shapeRun ['ب'] = ['ﺏ'] := by decide

/-- The characters Python's `str.strip()` (no arguments) removes: the
Unicode whitespace set U+0009..U+000D, U+001C..U+001F, space, U+0085,
U+00A0, U+1680, U+2000..U+200A, U+2028, U+2029, U+202F, U+205F, U+3000. -/
def pyIsSpace (c : Char) : Bool :=
  decide ((0x9 ≤ c.toNat ∧ c.toNat ≤ 0xD) ∨ (0x1C ≤ c.toNat ∧ c.toNat ≤ 0x1F) ∨
    c.toNat = 0x20 ∨ c.toNat = 0x85 ∨ c.toNat = 0xA0 ∨ c.toNat = 0x1680 ∨
    (0x2000 ≤ c.toNat ∧ c.toNat ≤ 0x200A) ∨ c.toNat = 0x2028 ∨ c.toNat = 0x2029 ∨
    c.toNat = 0x202F ∨ c.toNat = 0x205F ∨ c.toNat = 0x3000)

/-- Python `str.strip()`: drop leading and trailing whitespace. -/
def pyStrip (l : List Char) : List Char :=
  ((l.dropWhile pyIsSpace).reverse.dropWhile pyIsSpace).reverse

/-- The per-character class of the segmenter:
`_is_arabic(ch) or ch in '،؟!'`. -/
def isArabicClass (ch : Char) : Bool :=
  isArabic ch || decide (ch ∈ ['،', '؟', '!'])

/-- Python `text.split('\n')`: split into lines at every newline; always
returns at least one (possibly empty) line. -/
def splitNl : List Char → List (List Char)
  | [] => [[]]
  | c :: cs =>
    if c = '\n' then [] :: splitNl cs
    else
      match splitNl cs with
      | l :: ls => (c :: l) :: ls
      | [] => [[c]]

/-- Python `'\n'.join(lines)`. -/
def joinNl : List (List Char) → List Char
  | [] => []
  | [l] => l
  | l :: ls => l ++ '\n' :: joinNl ls

/-- The segmentation loop of `ar`: the accumulated segments, the open
buffer `cur`, and its class `cur_ar` (Python `None`/`True`/`False` is
`Option Bool`).  A class change with a non-empty buffer closes the
buffer; otherwise the character is appended, and an unset class is set
from the character. -/
def segLoop : List Char → List (Option Bool × List Char) → List Char → Option Bool →
    List (Option Bool × List Char)
  | [], segs, cur, curAr => if cur = [] then segs else segs ++ [(curAr, cur)]
  | ch :: rest, segs, cur, curAr =>
    let isAr := isArabicClass ch
    if some isAr ≠ curAr ∧ cur ≠ [] then
      segLoop rest (segs ++ [(curAr, cur)]) [ch] (some isAr)
    else
      segLoop rest segs (cur ++ [ch]) (if curAr = none then some isAr else curAr)

/-- The segmenter of `ar` applied to one line. -/
def segments (line : List Char) : List (Option Bool × List Char) :=
  segLoop line [] [] none

/-- The per-line body of `ar`: a whitespace-only line becomes empty;
otherwise each Arabic-class segment is stripped, shaped and
character-reversed while other segments pass through, the segment order
is reversed, and the texts are concatenated.  Python's truthiness test
`if is_ar:` on the stored `None`/`True`/`False` succeeds only on
`True`, i.e. on `some true`. -/
def arLine (line : List Char) : List Char :=
  if pyStrip line = [] then []
  else
    let parts := (segments line).map (fun s =>
      if s.1 = some true then ("ar", (shapeRun (pyStrip s.2)).reverse)
      else ("ltr", s.2))
    (parts.reverse.map (fun p => p.2)).flatten

/-- Source `ar` on a character list: the empty input is returned
unchanged, otherwise the text is split at newlines, each line is
transformed by `arLine`, and the lines are rejoined with newlines. -/
def arList (text : List Char) : List Char :=
  if text = [] then text
  else joinNl ((splitNl text).map arLine)

/-- Source `ar` on a `String`. -/
def ar (text : String) : String :=
  String.mk (arList text.data)

example : arList ['م', 'ر', 'ح', 'ب', 'ا', ' ', 'H', 'e', 'l', 'l', 'o'] =
    [' ', 'H', 'e', 'l', 'l', 'o', 'ﺎ', 'ﺒ', 'ﺣ', 'ﺮ', 'ﻣ'] := by decide
example : arList [' '] = [] := by decide
example : ar "abc" = "abc" := by decide

/-!  Claim-side vocabulary, spelled from the specification's wording. -/

/-- Spec wording: `prev_connects` holds iff there is a previous character
(`i > 0`) and it has a form-table entry with a present initial slot. -/
def prevConnectsSpec : Option Char → Bool
  | none => false
  | some p =>
    match AR_FORMS.lookup p with
    | some g => g.f2.isSome
    | none => false

/-- Spec wording: `next_joinable` holds iff a next character exists, is an
Arabic-block code point or has a form-table entry, and is not one of
space, Arabic comma, Arabic question mark, exclamation mark, en-dash,
hyphen, or newline. -/
def nextJoinableSpec : List Char → Bool
  | [] => false
  | nxt :: _ =>
    (isArabic nxt || (AR_FORMS.lookup nxt).isSome) &&
      !(decide (nxt = ' ' ∨ nxt = '،' ∨ nxt = '؟' ∨ nxt = '!' ∨ nxt = '–' ∨
        nxt = '-' ∨ nxt = '\n'))

/-- The current character starts a lam+alef ligature: it is lam and the
next character has a `_LAM_ALEF` entry. -/
def startsLamAlef (ch : Char) (rest : List Char) : Bool :=
  decide (ch = lamChar) && ((rest.head?.map (fun nxt => (LAM_ALEF.lookup nxt).isSome)).getD false)

lemma prevConnectsSpec_eq (prev : Option Char) : prevConnectsSpec prev = prevConn prev := by
  cases prev with
  | none => rfl
  | some p =>
    show (match AR_FORMS.lookup p with
          | some g => g.f2.isSome
          | none => false) = connectsLeft p
    unfold connectsLeft
    rfl

lemma nextJoinableSpec_eq (rest : List Char) : nextJoinableSpec rest = nextAr rest := by
  cases rest with
  | nil => rfl
  | cons nxt t =>
    show ((isArabic nxt || (AR_FORMS.lookup nxt).isSome) && _) =
      ((isArabic nxt || (AR_FORMS.lookup nxt).isSome) && _)
    congr 1
    congr 1
    rw [decide_eq_decide]
    simp [shapeBreaks]

example : startsLamAlef 'ل' ['ا'] = true := by decide
example : startsLamAlef 'ل' ['ب'] = false := by decide

/-- C1.  For a character with a form-table entry that does not start a
lam+alef ligature, `_shape_run` emits the code point chosen by the
priority medial, else final, else initial, else isolated, with
`prev_connects` and `next_joinable` as the specification defines them,
and then continues with the next character. -/
theorem shape_run_form_selection (prev : Option Char) (ch : Char) (rest : List Char)
    (f : FormEntry) (hf : AR_FORMS.lookup ch = some f)
    (hnl : startsLamAlef ch rest = false) :
    shapeRunGo prev (ch :: rest) =
      (if prevConnectsSpec prev && nextJoinableSpec rest && f.f2.isSome && f.f3.isSome
        then f.f3.getD f.f0
       else if prevConnectsSpec prev && f.f1.isSome then f.f1.getD f.f0
       else if nextJoinableSpec rest && f.f2.isSome && f.f2.isSome then f.f2.getD f.f0
       else f.f0) :: shapeRunGo (some ch) rest := by
  rw [prevConnectsSpec_eq, nextJoinableSpec_eq]
  have hform : (if prevConn prev && nextAr rest && f.f2.isSome && f.f3.isSome
        then f.f3.getD f.f0
       else if prevConn prev && f.f1.isSome then f.f1.getD f.f0
       else if nextAr rest && f.f2.isSome && f.f2.isSome then f.f2.getD f.f0
       else f.f0) = chooseForm f (prevConn prev) (nextAr rest) := rfl
  rw [hform]
  cases rest with
  | nil => simp [shapeRunGo, hf]
  | cons nxt rest2 =>
    by_cases hlam : ch = lamChar
    · subst hlam
      have hlk : LAM_ALEF.lookup nxt = none := by
        unfold startsLamAlef at hnl
        simp at hnl
        exact Option.isNone_iff_eq_none.mp (by simpa using hnl)
      simp [shapeRunGo, hf, hlk]
    · simp [shapeRunGo, hf, hlam]

/-- Witness for C1 at the concrete two-letter run beh, beh: the first beh
takes its initial form. -/
theorem shape_run_form_selection_witness :
    shapeRunGo none ['ب', 'ب'] =
      (if prevConnectsSpec none && nextJoinableSpec ['ب'] &&
          (some 'ﺑ' : Option Char).isSome && (some 'ﺒ' : Option Char).isSome
        then (some 'ﺒ' : Option Char).getD 'ﺏ'
       else if prevConnectsSpec none && (some 'ﺐ' : Option Char).isSome
        then (some 'ﺐ' : Option Char).getD 'ﺏ'
       else if nextJoinableSpec ['ب'] && (some 'ﺑ' : Option Char).isSome &&
          (some 'ﺑ' : Option Char).isSome
        then (some 'ﺑ' : Option Char).getD 'ﺏ'
       else 'ﺏ') :: shapeRunGo (some 'ب') ['ب'] :=
  shape_run_form_selection none 'ب' ['ب'] ⟨'ﺏ', some 'ﺐ', some 'ﺑ', some 'ﺒ'⟩
    (by decide) (by decide)

/-- C2.  When the current character is lam and the next character is a
ligature-eligible alef variant, `_shape_run` emits exactly one ligature
code point — the final-ligature slot when the previous character joins
forward, else the isolated-ligature slot — consumes both characters, and
continues after the alef; in particular the standalone run lam, alef
shapes to the single code point U+FEFB. -/
theorem shape_run_lam_alef (prev : Option Char) (nxt : Char) (rest2 : List Char)
    (lig : LigEntry) (hlig : LAM_ALEF.lookup nxt = some lig) :
    shapeRunGo prev (lamChar :: nxt :: rest2) =
      (if prevConnectsSpec prev then lig.l1 else lig.l0) :: shapeRunGo (some nxt) rest2 ∧
    shapeRun ['ل', 'ا'] = ['ﻻ'] := by
  constructor
  · rw [prevConnectsSpec_eq]
    have hl : AR_FORMS.lookup lamChar = some ⟨'ﻝ', some 'ﻞ', some 'ﻟ', some 'ﻠ'⟩ := by decide
    simp [shapeRunGo, hl, hlig]
  · decide

/-- Witness for C2 at the standalone run lam, alef. -/
theorem shape_run_lam_alef_witness :
    shapeRunGo none (lamChar :: 'ا' :: []) =
      (if prevConnectsSpec none then 'ﻼ' else 'ﻻ') :: shapeRunGo (some 'ا') [] ∧
    shapeRun ['ل', 'ا'] = ['ﻻ'] :=
  shape_run_lam_alef none 'ا' [] ⟨'ﻻ', 'ﻼ'⟩ (by decide)

/-- Counting the lam+alef pairs that the `_shape_run` scan collapses:
a lam with a form-table entry followed by a ligature-eligible alef
consumes both characters and counts one pair. -/
def ligCount : List Char → Nat
  | [] => 0
  | _ :: [] => 0
  | ch :: nxt :: rest2 =>
    if (AR_FORMS.lookup ch).isSome && decide (ch = lamChar) && (LAM_ALEF.lookup nxt).isSome
    then 1 + ligCount rest2
    else ligCount (nxt :: rest2)

/-- Two-step structural recursion on character lists, matching the
shaper's consume-one-or-two scan. -/
def pairRec {motive : List Char → Sort _}
    (h0 : motive [])
    (h1 : ∀ c, motive [c])
    (h2 : ∀ c d rest, motive rest → motive (d :: rest) → motive (c :: d :: rest)) :
    ∀ l, motive l
  | [] => h0
  | [c] => h1 c
  | c :: d :: rest => h2 c d rest (pairRec h0 h1 h2 rest) (pairRec h0 h1 h2 (d :: rest))

lemma shapeRunGo_length (chars : List Char) :
    ∀ prev, (shapeRunGo prev chars).length + ligCount chars = chars.length := by
  induction chars using pairRec with
  | h0 => intro prev; simp [shapeRunGo, ligCount]
  | h1 c =>
    intro prev
    cases h : AR_FORMS.lookup c <;> simp [shapeRunGo, ligCount, h]
  | h2 c d rest ih1 ih2 =>
    intro prev
    cases hc : AR_FORMS.lookup c with
    | none =>
      have h := ih2 (some c)
      simp [shapeRunGo, hc, ligCount] at *
      omega
    | some f =>
      by_cases hlam : c = lamChar
      · subst hlam
        cases hd : LAM_ALEF.lookup d with
        | none =>
          have h := ih2 (some lamChar)
          simp [shapeRunGo, hc, hd, ligCount] at *
          omega
        | some lig =>
          have h := ih1 (some d)
          simp [shapeRunGo, hc, hd, ligCount] at *
          omega
      · have h := ih2 (some c)
        simp [shapeRunGo, hc, ligCount, hlam] at *
        omega

/-- C7.  `_shape_run` emits one output code point per consumed character
except that each lam+alef pair consumes two characters and emits one
ligature code point, so the output length is the input length minus the
number of collapsed pairs. -/
theorem shape_run_length_conservation (chars : List Char) :
    (shapeRun chars).length + ligCount chars = chars.length :=
  shapeRunGo_length chars none

/-- C9.  `ar` is not idempotent: re-applying it moves the Arabic-Indic
digits zero, one (which have no form-table entry but are Arabic-block
code points) back to their original order. -/
theorem ar_not_idempotent : ∃ x : String, ar (ar x) ≠ ar x :=
  ⟨"٠١", by decide⟩

/-- Counterexample to C4 as stated: the all-whitespace string of one
space contains no Arabic-class character, yet `ar` returns the empty
string rather than the input. -/
theorem ar_unchanged_no_arabic_cex :
    (∀ c ∈ [' '], isArabicClass c = false) ∧ arList [' '] ≠ [' '] := by
  decide

/-- Counterexample to C6 as stated: the Latin-class segment of the mixed
line is the six characters space, H, e, l, l, o — not the five-character
segment Hello. -/
theorem ar_mixed_scenario_cex :
    ¬ (segments ['م', 'ر', 'ح', 'ب', 'ا', ' ', 'H', 'e', 'l', 'l', 'o'] =
        [(some true, ['م', 'ر', 'ح', 'ب', 'ا']),
         (some false, ['H', 'e', 'l', 'l', 'o'])]) := by
  decide

/-- C6 as amended: the mixed line segments into the Arabic run and the
Latin run with its leading space; the Arabic run is shaped then
character-reversed, the Latin run passes through unchanged, and the
reversal of segment order places the Latin text first. -/
theorem ar_mixed_scenario :
    segments ['م', 'ر', 'ح', 'ب', 'ا', ' ', 'H', 'e', 'l', 'l', 'o'] =
      [(some true, ['م', 'ر', 'ح', 'ب', 'ا']),
       (some false, [' ', 'H', 'e', 'l', 'l', 'o'])] ∧
    arList ['م', 'ر', 'ح', 'ب', 'ا', ' ', 'H', 'e', 'l', 'l', 'o'] =
      [' ', 'H', 'e', 'l', 'l', 'o'] ++ (shapeRun ['م', 'ر', 'ح', 'ب', 'ا']).reverse ∧
    (shapeRun ['م', 'ر', 'ح', 'ب', 'ا']).reverse = ['ﺎ', 'ﺒ', 'ﺣ', 'ﺮ', 'ﻣ'] :=
  ⟨by decide, by decide, by decide⟩

lemma segLoop_flatten (cs : List Char) :
    ∀ segs cur curAr,
      ((segLoop cs segs cur curAr).map (fun s => s.2)).flatten =
        (segs.map (fun s => s.2)).flatten ++ cur ++ cs := by
  induction cs with
  | nil =>
    intro segs cur curAr
    by_cases h : cur = [] <;> simp [segLoop, h]
  | cons ch rest ih =>
    intro segs cur curAr
    by_cases h : some (isArabicClass ch) ≠ curAr ∧ cur ≠ []
    · simp only [segLoop, if_pos h, ih]
      simp
    · simp only [segLoop, if_neg h, ih]
      simp

/-- C3.  Concatenating the texts of the segments of a line, in original
order and original internal character order, reproduces the line. -/
theorem segments_concat_eq (line : List Char) :
    (((segments line).map (fun s => s.2)).flatten) = line := by
  simpa using segLoop_flatten line [] [] none

lemma dropWhile_eq_nil_of_all {p : Char → Bool} {l : List Char}
    (h : ∀ c ∈ l, p c = true) : l.dropWhile p = [] := by
  induction l with
  | nil => rfl
  | cons c cs ih =>
    simp only [List.dropWhile_cons, h c (by simp)]
    exact ih fun x hx => h x (by simp [hx])

lemma dropWhile_eq_self_of_none {p : Char → Bool} {l : List Char}
    (h : ∀ c ∈ l, p c = false) : l.dropWhile p = l := by
  cases l with
  | nil => rfl
  | cons c cs => simp [List.dropWhile_cons, h c (by simp)]

lemma pyStrip_eq_nil_of_all {l : List Char} (h : ∀ c ∈ l, pyIsSpace c = true) :
    pyStrip l = [] := by
  unfold pyStrip
  rw [dropWhile_eq_nil_of_all h]
  rfl

lemma pyStrip_eq_self {l : List Char} (h : ∀ c ∈ l, pyIsSpace c = false) :
    pyStrip l = l := by
  unfold pyStrip
  rw [dropWhile_eq_self_of_none h,
    dropWhile_eq_self_of_none (fun c hc => h c (List.mem_reverse.mp hc)),
    List.reverse_reverse]

/-- C5.  A line that is empty or consists entirely of whitespace produces
the empty output line. -/
theorem ar_line_whitespace_empty (l : List Char) (h : ∀ c ∈ l, pyIsSpace c = true) :
    arLine l = [] := by
  unfold arLine
  rw [if_pos (pyStrip_eq_nil_of_all h)]

/-- Witness for C5 at the single-space line. -/
theorem ar_line_whitespace_empty_witness : arLine [' '] = [] :=
  ar_line_whitespace_empty [' '] (by decide)

/-- No Arabic-class character is whitespace: the Arabic block and the
three Arabic-class punctuation marks are disjoint from Python's
whitespace set. -/
lemma isArabicClass_not_space {c : Char} (h : isArabicClass c = true) :
    pyIsSpace c = false := by
  unfold isArabicClass at h
  rcases Bool.or_eq_true _ _ |>.mp h with h1 | h2
  · unfold isArabic at h1
    have hb := of_decide_eq_true h1
    unfold pyIsSpace
    apply decide_eq_false
    omega
  · have hm := of_decide_eq_true h2
    simp only [List.mem_cons, List.not_mem_nil, or_false] at hm
    rcases hm with rfl | rfl | rfl <;> decide

lemma segLoop_class (cs : List Char) :
    ∀ segs cur curAr,
      (∀ s ∈ segs, ∀ b, s.1 = some b → ∀ c ∈ s.2, isArabicClass c = b) →
      (∀ b, curAr = some b → ∀ c ∈ cur, isArabicClass c = b) →
      (curAr = none ↔ cur = []) →
      ∀ s ∈ segLoop cs segs cur curAr, ∀ b, s.1 = some b → ∀ c ∈ s.2, isArabicClass c = b := by
  induction cs with
  | nil =>
    intro segs cur curAr h1 h2 h3 s hs b hb c hc
    by_cases h : cur = []
    · rw [segLoop, if_pos h] at hs
      exact h1 s hs b hb c hc
    · rw [segLoop, if_neg h] at hs
      rcases List.mem_append.mp hs with hmem | hmem
      · exact h1 s hmem b hb c hc
      · simp only [List.mem_singleton] at hmem
        subst hmem
        exact h2 b hb c hc
  | cons ch rest ih =>
    intro segs cur curAr h1 h2 h3
    by_cases h : some (isArabicClass ch) ≠ curAr ∧ cur ≠ []
    · rw [segLoop, if_pos h]
      apply ih
      · intro s hs b hb c hc
        rcases List.mem_append.mp hs with hmem | hmem
        · exact h1 s hmem b hb c hc
        · simp only [List.mem_singleton] at hmem
          subst hmem
          exact h2 b hb c hc
      · intro b hb c hc
        simp only [List.mem_singleton] at hc
        subst hc
        cases hb
        rfl
      · constructor
        · intro hcontra; cases hcontra
        · intro hcontra; cases hcontra
    · rw [segLoop, if_neg h]
      have hkeep : cur ≠ [] → some (isArabicClass ch) = curAr := by
        intro hcur
        by_contra hne
        exact h ⟨hne, hcur⟩
      apply ih
      · exact h1
      · intro b hb c hc
        rcases List.mem_append.mp hc with hmem | hmem
        · have hcur : cur ≠ [] := by
            intro hnil
            exact (List.not_mem_nil c) (hnil ▸ hmem)
          have hAr : curAr ≠ none := fun hn => hcur (h3.mp hn)
          rw [if_neg hAr] at hb
          exact h2 b hb c hmem
        · simp only [List.mem_singleton] at hmem
          subst hmem
          by_cases hAr : curAr = none
          · rw [if_pos hAr] at hb
            cases hb
            rfl
          · rw [if_neg hAr] at hb
            have hcur : cur ≠ [] := fun hnil => hAr (h3.mpr hnil)
            exact Option.some_inj.mp ((hkeep hcur).trans hb)
      · constructor
        · intro hn
          by_cases hAr : curAr = none
          · rw [if_pos hAr] at hn
            cases hn
          · rw [if_neg hAr] at hn
            exact absurd hn hAr
        · intro hcontra
          exact absurd hcontra (by simp)

/-- Every character of a segment carries the class the segmenter stored
for that segment. -/
lemma segments_class (line : List Char) :
    ∀ s ∈ segments line, ∀ b, s.1 = some b → ∀ c ∈ s.2, isArabicClass c = b := by
  apply segLoop_class
  · intro s hs
    exact absurd hs (List.not_mem_nil s)
  · intro b hb
    cases hb
  · simp

/-- C10.  An Arabic-class segment contains no whitespace character, so
the strip applied before shaping removes nothing. -/
theorem arabic_segment_no_whitespace (line : List Char) (s : Option Bool × List Char)
    (hs : s ∈ segments line) (har : s.1 = some true) :
    (∀ c ∈ s.2, pyIsSpace c = false) ∧ pyStrip s.2 = s.2 := by
  have hcl := segments_class line s hs true har
  have hns : ∀ c ∈ s.2, pyIsSpace c = false :=
    fun c hc => isArabicClass_not_space (hcl c hc)
  exact ⟨hns, pyStrip_eq_self hns⟩

/-- Witness for C10 at the one-letter line alef. -/
theorem arabic_segment_no_whitespace_witness :
    (∀ c ∈ ((some true, ['ا']) : Option Bool × List Char).2, pyIsSpace c = false) ∧
      pyStrip ((some true, ['ا']) : Option Bool × List Char).2 =
        ((some true, ['ا']) : Option Bool × List Char).2 :=
  arabic_segment_no_whitespace ['ا'] (some true, ['ا']) (by decide) rfl

lemma splitNl_ne_nil (s : List Char) : splitNl s ≠ [] := by
  cases s with
  | nil => simp [splitNl]
  | cons c cs =>
    unfold splitNl
    by_cases h : c = '\n'
    · simp [h]
    · rw [if_neg h]
      cases hs : splitNl cs with
      | nil => simp
      | cons l ls => simp

lemma splitNl_exists_cons (s : List Char) : ∃ l ls, splitNl s = l :: ls := by
  cases h : splitNl s with
  | nil => exact absurd h (splitNl_ne_nil s)
  | cons l ls => exact ⟨l, ls, rfl⟩

lemma joinNl_cons_head (c : Char) (l : List Char) (ls : List (List Char)) :
    joinNl ((c :: l) :: ls) = c :: joinNl (l :: ls) := by
  cases ls with
  | nil => rfl
  | cons l2 ls2 => rfl

lemma joinNl_splitNl (s : List Char) : joinNl (splitNl s) = s := by
  induction s with
  | nil => rfl
  | cons c cs ih =>
    unfold splitNl
    obtain ⟨l, ls, hs⟩ := splitNl_exists_cons cs
    by_cases h : c = '\n'
    · subst h
      rw [if_pos rfl, hs]
      show '\n' :: joinNl (l :: ls) = '\n' :: cs
      rw [← hs, ih]
    · rw [if_neg h, hs]
      show joinNl ((c :: l) :: ls) = c :: cs
      rw [joinNl_cons_head, ← hs, ih]

lemma mem_of_mem_splitNl (s : List Char) :
    ∀ l ∈ splitNl s, ∀ c ∈ l, c ∈ s := by
  induction s with
  | nil =>
    intro l hl c hc
    simp only [splitNl, List.mem_singleton] at hl
    subst hl
    exact absurd hc (List.not_mem_nil c)
  | cons a cs ih =>
    intro l hl c hc
    unfold splitNl at hl
    by_cases h : a = '\n'
    · rw [if_pos h] at hl
      rcases List.mem_cons.mp hl with rfl | hl2
      · exact absurd hc (List.not_mem_nil c)
      · exact List.mem_cons_of_mem a (ih l hl2 c hc)
    · rw [if_neg h] at hl
      obtain ⟨m, ms, hs⟩ := splitNl_exists_cons cs
      rw [hs] at hl
      rcases List.mem_cons.mp hl with rfl | hl2
      · rcases List.mem_cons.mp hc with rfl | hc2
        · exact List.mem_cons_self c cs
        · refine List.mem_cons_of_mem a (ih m ?_ c hc2)
          rw [hs]
          exact List.mem_cons_self m ms
      · refine List.mem_cons_of_mem a (ih l ?_ c hc)
        rw [hs]
        exact List.mem_cons_of_mem m hl2

lemma segLoop_all_false (cs : List Char) :
    ∀ segs cur, (∀ c ∈ cs, isArabicClass c = false) → cur ≠ [] →
      segLoop cs segs cur (some false) = segs ++ [(some false, cur ++ cs)] := by
  induction cs with
  | nil =>
    intro segs cur _ hcur
    rw [segLoop, if_neg hcur]
    simp
  | cons ch rest ih =>
    intro segs cur hall hcur
    have hch : isArabicClass ch = false := hall ch (by simp)
    simp only [segLoop, hch]
    rw [if_neg (by simp)]
    rw [if_neg (by simp)]
    rw [ih segs (cur ++ [ch]) (fun c hc => hall c (by simp [hc])) (by simp)]
    simp

lemma segments_all_false (l : List Char) (hne : l ≠ [])
    (h : ∀ c ∈ l, isArabicClass c = false) :
    segments l = [(some false, l)] := by
  cases l with
  | nil => exact absurd rfl hne
  | cons c cs =>
    have hc : isArabicClass c = false := h c (by simp)
    unfold segments
    simp only [segLoop, hc]
    rw [if_neg (by simp)]
    simp only [if_true]
    rw [segLoop_all_false cs [] ([] ++ [c]) (fun x hx => h x (by simp [hx])) (by simp)]
    simp

lemma arLine_no_arabic (l : List Char) (hne : l ≠ []) (hstrip : pyStrip l ≠ [])
    (h : ∀ c ∈ l, isArabicClass c = false) : arLine l = l := by
  unfold arLine
  rw [if_neg hstrip, segments_all_false l hne h]
  simp

lemma map_id_of_eq {α : Type} (l : List α) (f : α → α) (h : ∀ a ∈ l, f a = a) :
    l.map f = l := by
  induction l with
  | nil => rfl
  | cons a t ih => simp [h a (by simp), ih (fun x hx => h x (by simp [hx]))]

/-- C4 as amended: `ar` returns the input unchanged when the input has no
Arabic-class character and additionally no line of the input is
non-empty but entirely whitespace (such lines are emptied, which is the
counterexample to the claim as stated). -/
theorem ar_unchanged_no_arabic (s : List Char)
    (h1 : ∀ c ∈ s, isArabicClass c = false)
    (h2 : ∀ l ∈ splitNl s, l ≠ [] → pyStrip l ≠ []) :
    arList s = s := by
  by_cases hs : s = []
  · rw [hs]
    rfl
  · unfold arList
    rw [if_neg hs]
    rw [map_id_of_eq _ arLine ?_, joinNl_splitNl]
    intro l hl
    by_cases hl0 : l = []
    · subst hl0
      decide
    · exact arLine_no_arabic l hl0 (h2 l hl hl0)
        (fun c hc => h1 c (mem_of_mem_splitNl s l hl c hc))

/-- Witness for the amended C4 at a two-letter Latin input. -/
theorem ar_unchanged_no_arabic_witness : arList ['a', 'b'] = ['a', 'b'] :=
  ar_unchanged_no_arabic ['a', 'b'] (by decide) (by decide)

lemma shapeRunGo_cons_notin (prev : Option Char) (ch : Char) (rest : List Char)
    (h : AR_FORMS.lookup ch = none) :
    shapeRunGo prev (ch :: rest) = ch :: shapeRunGo (some ch) rest := by
  cases rest with
  | nil => simp [shapeRunGo, h]
  | cons nxt rest2 => simp [shapeRunGo, h]

lemma shapeRunGo_cons_lig (prev : Option Char) (nxt : Char) (rest2 : List Char)
    (lig : LigEntry) (hlig : LAM_ALEF.lookup nxt = some lig) :
    shapeRunGo prev (lamChar :: nxt :: rest2) =
      (if prevConn prev then lig.l1 else lig.l0) :: shapeRunGo (some nxt) rest2 := by
  have hl : AR_FORMS.lookup lamChar = some ⟨'ﻝ', some 'ﻞ', some 'ﻟ', some 'ﻠ'⟩ := by decide
  simp [shapeRunGo, hl, hlig]

lemma shapeRunGo_cons_form (prev : Option Char) (ch : Char) (rest : List Char)
    (f : FormEntry) (hf : AR_FORMS.lookup ch = some f)
    (hnl : startsLamAlef ch rest = false) :
    shapeRunGo prev (ch :: rest) =
      chooseForm f (prevConn prev) (nextAr rest) :: shapeRunGo (some ch) rest := by
  cases rest with
  | nil => simp [shapeRunGo, hf]
  | cons nxt rest2 =>
    by_cases hlam : ch = lamChar
    · subst hlam
      have hlk : LAM_ALEF.lookup nxt = none := by
        unfold startsLamAlef at hnl
        simp at hnl
        exact Option.isNone_iff_eq_none.mp (by simpa using hnl)
      simp [shapeRunGo, hf, hlk]
    · simp [shapeRunGo, hf, hlam]

/-- The guarded access `chars[i-1]` of the source: defined only behind
the `i > 0` test; `none` would model an out-of-range index error. -/
def prevConnE (chars : List Char) (i : Nat) : Option Bool :=
  if 0 < i then (chars[i-1]?).map connectsLeft else some false

/-- Source local `next_ar` in index form: `nxt = chars[i+1] if i+1 <
len(chars) else ''`, then the Arabic-or-table test and the break-set
test (the empty-string sentinel fails the first conjunct). -/
def nextArE (chars : List Char) (i : Nat) : Bool :=
  match chars[i+1]? with
  | none => false
  | some nxt => (isArabic nxt || (AR_FORMS.lookup nxt).isSome) && !(decide (nxt ∈ shapeBreaks))

/-- The `while` loop of `_shape_run` in index form, with every list
index and table subscript fallible: `none` models an uncaught
`IndexError`/`KeyError` or running out of fuel (non-termination); the
fuel only decreases, while the index advances by 1 or 2 exactly as the
source increments `i`. -/
def shapeLoopE (chars : List Char) : Nat → Nat → Option (List Char)
  | 0, _ => none
  | fuel + 1, i =>
    if i < chars.length then
      (chars[i]?).bind fun ch =>
        if (AR_FORMS.lookup ch).isNone then
          (shapeLoopE chars fuel (i + 1)).map (fun tl => ch :: tl)
        else
          (AR_FORMS.lookup ch).bind fun f =>
            if decide (ch = lamChar) && decide (i + 1 < chars.length) &&
                ((chars[i+1]?).map (fun nxt => (LAM_ALEF.lookup nxt).isSome)).getD false then
              (chars[i+1]?).bind fun nxt =>
                (LAM_ALEF.lookup nxt).bind fun lig =>
                  (prevConnE chars i).bind fun pc =>
                    (shapeLoopE chars fuel (i + 2)).map
                      (fun tl => (if pc then lig.l1 else lig.l0) :: tl)
            else
              (prevConnE chars i).bind fun pc =>
                (shapeLoopE chars fuel (i + 1)).map
                  (fun tl => chooseForm f pc (nextArE chars i) :: tl)
    else some []

/-- Fallible `_shape_run`: the loop with enough fuel for every step. -/
def shapeRunE (chars : List Char) : Option (List Char) :=
  shapeLoopE chars (chars.length + 1) 0

/-- The previous character `chars[i-1]` seen from index `i`. -/
def prevOpt (chars : List Char) (i : Nat) : Option Char :=
  if 0 < i then chars[i-1]? else none

lemma prevConnE_eq (chars : List Char) (i : Nat) (hi : i ≤ chars.length) :
    prevConnE chars i = some (prevConn (prevOpt chars i)) := by
  unfold prevConnE prevOpt
  by_cases h : 0 < i
  · rw [if_pos h, if_pos h]
    have hlt : i - 1 < chars.length := by omega
    rw [List.getElem?_eq_getElem hlt]
    rfl
  · rw [if_neg h, if_neg h]
    rfl

lemma nextArE_drop (chars : List Char) (i : Nat) :
    nextArE chars i = nextAr (chars.drop (i+1)) := by
  unfold nextArE
  by_cases h : i + 1 < chars.length
  · rw [List.getElem?_eq_getElem h, List.drop_eq_getElem_cons h]
    rfl
  · rw [List.getElem?_eq_none (by omega), List.drop_eq_nil_of_le (by omega)]
    rfl

lemma shapeLoopE_eq (chars : List Char) :
    ∀ fuel i, chars.length - i < fuel →
      shapeLoopE chars fuel i = some (shapeRunGo (prevOpt chars i) (chars.drop i)) := by
  intro fuel
  induction fuel with
  | zero =>
    intro i hi
    omega
  | succ fuel ih =>
    intro i hi
    by_cases h : i < chars.length
    · have hget : chars[i]? = some chars[i] := List.getElem?_eq_getElem h
      have hdrop : chars.drop i = chars[i] :: chars.drop (i+1) :=
        List.drop_eq_getElem_cons h
      have hprev1 : prevOpt chars (i+1) = some chars[i] := by
        unfold prevOpt
        rw [if_pos (by omega)]
        exact hget
      rw [hdrop]
      simp only [shapeLoopE, if_pos h, hget, Option.some_bind]
      cases hlk : AR_FORMS.lookup chars[i] with
      | none =>
        simp only [hlk, Option.isNone_none, if_true]
        rw [ih (i+1) (by omega), hprev1, shapeRunGo_cons_notin _ _ _ hlk]
        rfl
      | some f =>
        simp only [hlk, Option.isNone_some, Bool.false_eq_true, if_false, Option.some_bind]
        by_cases hlam : chars[i] = lamChar
        · by_cases hn1 : i + 1 < chars.length
          · have hget1 : chars[i+1]? = some chars[i+1] := List.getElem?_eq_getElem hn1
            have hdrop1 : chars.drop (i+1) = chars[i+1] :: chars.drop (i+2) :=
              List.drop_eq_getElem_cons hn1
            have hprev2 : prevOpt chars (i+2) = some chars[i+1] := by
              unfold prevOpt
              rw [if_pos (by omega)]
              exact hget1
            cases hlk2 : LAM_ALEF.lookup chars[i+1] with
            | some lig =>
              have hcond : (decide (chars[i] = lamChar) && decide (i + 1 < chars.length) &&
                  ((chars[i+1]?).map (fun nxt => (LAM_ALEF.lookup nxt).isSome)).getD false)
                    = true := by
                rw [hget1]
                simp [hlam, hn1, hlk2]
              rw [hcond, if_pos rfl, hget1]
              simp only [Option.some_bind]
              rw [hlk2]
              simp only [Option.some_bind]
              rw [prevConnE_eq chars i (by omega)]
              simp only [Option.some_bind]
              rw [ih (i+2) (by omega), hprev2]
              simp only [Option.map_some']
              rw [hdrop1, hlam, shapeRunGo_cons_lig _ _ _ _ hlk2]
            | none =>
              have h3 : ((chars[i+1]?).map (fun nxt => (LAM_ALEF.lookup nxt).isSome)).getD false
                  = false := by
                rw [hget1, Option.map_some', hlk2]
                rfl
              have hcond : (decide (chars[i] = lamChar) && decide (i + 1 < chars.length) &&
                  ((chars[i+1]?).map (fun nxt => (LAM_ALEF.lookup nxt).isSome)).getD false)
                    = false := by
                rw [h3, Bool.and_false]
              have hnl : startsLamAlef chars[i] (chars.drop (i+1)) = false := by
                unfold startsLamAlef
                rw [hdrop1, List.head?_cons, Option.map_some', hlk2]
                simp
              rw [hcond, if_neg (by simp)]
              rw [prevConnE_eq chars i (by omega)]
              simp only [Option.some_bind]
              rw [ih (i+1) (by omega), hprev1]
              simp only [Option.map_some']
              rw [shapeRunGo_cons_form _ _ _ _ hlk hnl, nextArE_drop chars i]
          · have hcond : (decide (chars[i] = lamChar) && decide (i + 1 < chars.length) &&
                ((chars[i+1]?).map (fun nxt => (LAM_ALEF.lookup nxt).isSome)).getD false)
                  = false := by
              simp [hn1]
            have hnl : startsLamAlef chars[i] (chars.drop (i+1)) = false := by
              rw [List.drop_eq_nil_of_le (by omega)]
              simp [startsLamAlef]
            rw [hcond, if_neg (by simp)]
            rw [prevConnE_eq chars i (by omega)]
            simp only [Option.some_bind]
            rw [ih (i+1) (by omega), hprev1]
            simp only [Option.map_some']
            rw [shapeRunGo_cons_form _ _ _ _ hlk hnl, nextArE_drop chars i]
        · have hcond : (decide (chars[i] = lamChar) && decide (i + 1 < chars.length) &&
              ((chars[i+1]?).map (fun nxt => (LAM_ALEF.lookup nxt).isSome)).getD false)
                = false := by
            simp [hlam]
          have hnl : startsLamAlef chars[i] (chars.drop (i+1)) = false := by
            simp [startsLamAlef, hlam]
          rw [hcond, if_neg (by simp)]
          rw [prevConnE_eq chars i (by omega)]
          simp only [Option.some_bind]
          rw [ih (i+1) (by omega), hprev1]
          simp only [Option.map_some']
          rw [shapeRunGo_cons_form _ _ _ _ hlk hnl, nextArE_drop chars i]
    · rw [List.drop_eq_nil_of_le (by omega)]
      simp only [shapeLoopE, if_neg h]
      rfl

lemma shapeRunE_eq (chars : List Char) : shapeRunE chars = some (shapeRun chars) := by
  unfold shapeRunE shapeRun
  rw [shapeLoopE_eq chars (chars.length + 1) 0 (by omega)]
  rfl

/-- Fallible per-line body of `ar`: the only fallible operation a line
performs is `_shape_run` on each Arabic-class segment. -/
def arLineE (line : List Char) : Option (List Char) :=
  if pyStrip line = [] then some []
  else
    match (segments line).mapM (fun s =>
      if s.1 = some true then
        (shapeRunE (pyStrip s.2)).map (fun shaped => (("ar" : String), shaped.reverse))
      else some (("ltr" : String), s.2)) with
    | none => none
    | some parts => some ((parts.reverse.map (fun p => p.2)).flatten)

/-- Fallible `ar`. -/
def arE (text : List Char) : Option (List Char) :=
  if text = [] then some text
  else ((splitNl text).mapM arLineE).map joinNl

lemma mapM_eq_some_map {α β : Type} (f : α → Option β) (g : α → β) (l : List α)
    (h : ∀ a ∈ l, f a = some (g a)) : l.mapM f = some (l.map g) := by
  induction l with
  | nil => rfl
  | cons a t ih =>
    rw [List.mapM_cons, h a (by simp), ih (fun x hx => h x (by simp [hx]))]
    rfl

lemma arLineE_eq (line : List Char) : arLineE line = some (arLine line) := by
  unfold arLineE arLine
  by_cases h : pyStrip line = []
  · rw [if_pos h, if_pos h]
  · rw [if_neg h, if_neg h]
    have hmap : (segments line).mapM (fun s =>
        if s.1 = some true then
          (shapeRunE (pyStrip s.2)).map (fun shaped => (("ar" : String), shaped.reverse))
        else some (("ltr" : String), s.2)) =
        some ((segments line).map (fun s =>
          if s.1 = some true then (("ar" : String), (shapeRun (pyStrip s.2)).reverse)
          else (("ltr" : String), s.2))) := by
      apply mapM_eq_some_map
      intro s _
      by_cases hT : s.1 = some true
      · rw [if_pos hT, if_pos hT, shapeRunE_eq]
        rfl
      · rw [if_neg hT, if_neg hT]
    rw [hmap]

/-- C8.  The transform is total: the fallible rendering of `ar`, in
which every list index, table subscript, and loop step of `_shape_run`
can fail, never fails and agrees with the direct embedding on every
input. -/
theorem ar_total (text : List Char) : arE text = some (arList text) := by
  unfold arE arList
  by_cases h : text = []
  · rw [if_pos h, if_pos h]
  · rw [if_neg h, if_neg h]
    rw [mapM_eq_some_map _ arLine _ (fun l _ => arLineE_eq l)]
    rfl
